import Mathlib

/-!
Verification of the constraint-model layer of the aps-learn repository.

The repository builds CP-SAT models for four example problems and
enumerates or optimizes their solutions:

* job-shop scheduling (src/job-shop.py and out/production/aps-learn/sample.py);
* the cryptarithmetic puzzle CP + IS + FUN = TRUE (src/sat-cp/cryptarithmetic.py);
* the N-queens puzzle (src/sat-cp/n-queens.py);
* nurse rostering with fairness bounds (src/nurse-shift.py);
* an explicit blocking-constraint enumeration loop (src/sat-cp/sat-cp.py).

The solver engine itself is external; what is verified here is the content
of the models the scripts build (their constraint semantics, solution sets
and counts) and the behaviour of the explicit enumeration loop against an
abstract solver satisfying the engine contract.
-/

set_option maxRecDepth 100000
set_option maxHeartbeats 3000000

namespace ApsLearn

/-! ### Job-shop model (job-shop.py, sample.py): definitions -/

namespace JobShop

/-- Duration of task `k` of job `j`: the second component of the data tuple
`(machine, duration)`, as in `jobs_data` of job-shop.py / sample.py. -/
def dur (jobs : List (List (ℕ × ℕ))) (j k : ℕ) : ℕ :=
  ((jobs.getD j []).getD k (0, 0)).2

/-- Machine of task `k` of job `j`: the first component of the data tuple. -/
def mach (jobs : List (List (ℕ × ℕ))) (j k : ℕ) : ℕ :=
  ((jobs.getD j []).getD k (0, 0)).1

/-- Number of tasks of job `j`. -/
def numTasks (jobs : List (List (ℕ × ℕ))) (j : ℕ) : ℕ :=
  (jobs.getD j []).length

/-- `horizon = sum(task[1] for job in jobs_data for task in job)`:
the sum of the durations of all tasks across all jobs. -/
def horizon (jobs : List (List (ℕ × ℕ))) : ℕ :=
  ((jobs.flatMap fun job => job).map fun task => task.2).sum

/-- End time of a task.  The model creates `end_var` together with an
interval variable `new_interval_var(start, duration, end)`, which pins
`end = start + duration`; a schedule is therefore determined by its
start times. -/
def endT (jobs : List (List (ℕ × ℕ))) (st : ℕ → ℕ → ℕ) (j k : ℕ) : ℕ :=
  st j k + dur jobs j k

/-- Domain constraints: every start and end variable is created with
domain `[0, horizon]` (`new_int_var(0, horizon, ...)`). -/
def DomainsOk (jobs : List (List (ℕ × ℕ))) (st : ℕ → ℕ → ℕ) : Prop :=
  ∀ j < jobs.length, ∀ k < numTasks jobs j,
    st j k ≤ horizon jobs ∧ endT jobs st j k ≤ horizon jobs

/-- No-overlap constraints: `add_no_overlap(machine_to_intervals[machine])`
for every machine; the intervals of two distinct tasks on the same machine
may not overlap, i.e. one ends before the other starts. -/
def NoOverlapOk (jobs : List (List (ℕ × ℕ))) (st : ℕ → ℕ → ℕ) : Prop :=
  ∀ j < jobs.length, ∀ k < numTasks jobs j,
    ∀ j2 < jobs.length, ∀ k2 < numTasks jobs j2,
      (j, k) ≠ (j2, k2) → mach jobs j k = mach jobs j2 k2 →
        endT jobs st j k ≤ st j2 k2 ∨ endT jobs st j2 k2 ≤ st j k

/-- Precedence constraints: for `task_id in range(len(job) - 1)` the model
posts `start(task_id + 1) >= end(task_id)`. -/
def PrecedenceOk (jobs : List (List (ℕ × ℕ))) (st : ℕ → ℕ → ℕ) : Prop :=
  ∀ j < jobs.length, ∀ k < numTasks jobs j - 1,
    st j (k + 1) ≥ endT jobs st j k

/-- A schedule is feasible when it satisfies all constraints the script
posts: variable domains, per-machine no-overlap, and in-job precedence. -/
def Feasible (jobs : List (List (ℕ × ℕ))) (st : ℕ → ℕ → ℕ) : Prop :=
  DomainsOk jobs st ∧ NoOverlapOk jobs st ∧ PrecedenceOk jobs st

instance (jobs : List (List (ℕ × ℕ))) (st : ℕ → ℕ → ℕ) :
    Decidable (NoOverlapOk jobs st) := by
  unfold NoOverlapOk
  exact @Nat.decidableBallLT jobs.length _ fun j _ =>
    @Nat.decidableBallLT (numTasks jobs j) _ fun k _ =>
      @Nat.decidableBallLT jobs.length _ fun j2 _ =>
        @Nat.decidableBallLT (numTasks jobs j2) _ fun k2 _ => inferInstance

instance (jobs : List (List (ℕ × ℕ))) (st : ℕ → ℕ → ℕ) :
    Decidable (Feasible jobs st) := by
  unfold Feasible DomainsOk PrecedenceOk
  infer_instance

/-- The end times of the last task of each job
(`all_tasks[(job_id, len(job) - 1)].end` for each job). -/
def lastTaskEnds (jobs : List (List (ℕ × ℕ))) (st : ℕ → ℕ → ℕ) : List ℕ :=
  (List.range jobs.length).map fun j => endT jobs st j (numTasks jobs j - 1)

/-- The makespan: `add_max_equality(makespan, last_task_ends)` makes the
objective variable the maximum of the last task end times. -/
def makespan (jobs : List (List (ℕ × ℕ))) (st : ℕ → ℕ → ℕ) : ℕ :=
  (lastTaskEnds jobs st).foldr max 0

/-- `v` is the minimum achievable makespan: some feasible schedule attains
it and no feasible schedule beats it (the model minimizes the makespan). -/
def MinMakespanIs (jobs : List (List (ℕ × ℕ))) (v : ℕ) : Prop :=
  (∃ st, Feasible jobs st ∧ makespan jobs st = v) ∧
  ∀ st, Feasible jobs st → v ≤ makespan jobs st

/-- The `jobs_data` of out/production/aps-learn/sample.py:
three jobs, two machines, tasks given as `(machine, duration)`. -/
def sampleJobs : List (List (ℕ × ℕ)) :=
  [[(0, 2), (1, 3)], [(0, 4), (1, 2)], [(0, 3), (1, 3)]]

/-- A concrete schedule for `sampleJobs` (start times per job and task). -/
def sampleSchedule : ℕ → ℕ → ℕ
  | 0, 0 => 0
  | 0, 1 => 2
  | 1, 0 => 5
  | 1, 1 => 9
  | 2, 0 => 2
  | 2, 1 => 5
  | _, _ => 0

end JobShop

/-! ### Cryptarithmetic model (cryptarithmetic.py): definitions -/

namespace Crypto

/-- The number base of the puzzle (`base = 10`). -/
def base : ℕ := 10

/-- An assignment of digits to the ten letters of CP + IS + FUN = TRUE. -/
structure Sol where
  c : ℕ
  p : ℕ
  i : ℕ
  s : ℕ
  f : ℕ
  u : ℕ
  n : ℕ
  t : ℕ
  r : ℕ
  e : ℕ
deriving DecidableEq

/-- The letter variables in the order of the `letters` list of the script. -/
def letters (a : Sol) : List ℕ :=
  [a.c, a.p, a.i, a.s, a.f, a.u, a.n, a.t, a.r, a.e]

/-- The linear equality the script posts:
`c*base + p + i*base + s + f*base*base + u*base + n
  == t*base*base*base + r*base*base + u*base + e`. -/
def puzzleEq (c p i s f u n t r e : ℕ) : Prop :=
  c * base + p + i * base + s + f * base * base + u * base + n
    = t * base * base * base + r * base * base + u * base + e

instance (c p i s f u n t r e : ℕ) : Decidable (puzzleEq c p i s f u n t r e) := by
  unfold puzzleEq
  infer_instance

/-- A satisfying assignment of the model: leading letters C, I, F, T range
over `[1, base-1]`, the others over `[0, base-1]`, all ten letters are
pairwise different (`add_all_different(letters)`), and the linear equality
holds. -/
def Ok (a : Sol) : Prop :=
  1 ≤ a.c ∧ a.c ≤ base - 1 ∧
  a.p ≤ base - 1 ∧
  1 ≤ a.i ∧ a.i ≤ base - 1 ∧
  a.s ≤ base - 1 ∧
  1 ≤ a.f ∧ a.f ≤ base - 1 ∧
  a.u ≤ base - 1 ∧
  a.n ≤ base - 1 ∧
  1 ≤ a.t ∧ a.t ≤ base - 1 ∧
  a.r ≤ base - 1 ∧
  a.e ≤ base - 1 ∧
  (letters a).Nodup ∧
  puzzleEq a.c a.p a.i a.s a.f a.u a.n a.t a.r a.e

instance : DecidablePred Ok := fun a => by
  unfold Ok
  infer_instance

/-- `x` differs from every element already chosen. -/
def okDistinct (acc : List ℕ) (x : ℕ) : Bool :=
  acc.all fun y => x != y

/-- The digits available to the letters other than T, R, F (the candidate
window `[2, 8]`; the analysis below shows T = 1, R = 0, F = 9 are forced). -/
def d7 : List ℕ := [2, 3, 4, 5, 6, 7, 8]

/-- Exhaustive enumeration of the satisfying assignments: T, R, F are
pinned to their forced values, the remaining seven letters run over
pairwise distinct digits of the window, and the leaf keeps exactly the
tuples satisfying the puzzle equality. -/
def cryptoEnum : List Sol :=
  d7.flatMap fun c =>
  (d7.filter (okDistinct [c])).flatMap fun p =>
  (d7.filter (okDistinct [c, p])).flatMap fun i =>
  (d7.filter (okDistinct [c, p, i])).flatMap fun s =>
  (d7.filter (okDistinct [c, p, i, s])).flatMap fun u =>
  (d7.filter (okDistinct [c, p, i, s, u])).flatMap fun n =>
  (d7.filter (okDistinct [c, p, i, s, u, n])).flatMap fun e =>
  if puzzleEq c p i s 9 u n 1 0 e
  then [⟨c, p, i, s, 9, u, n, 1, 0, e⟩] else []

end Crypto

/-! ### N-queens model (n-queens.py): definitions -/

namespace NQueens

/-- A solution of the N-queens model for board size `n`, represented by
the list of values of `queens[0], ..., queens[n-1]`: each variable has
domain `[0, n-1]`, the values are pairwise different
(`add_all_different(queens)`), as are the values `queens[i] + i` and the
values `queens[i] - i` (computed in the integers). -/
def nqOk (n : ℕ) (q : List ℕ) : Prop :=
  q.length = n ∧ (∀ x ∈ q, x ≤ n - 1) ∧ q.Nodup ∧
  (q.enum.map fun p => p.2 + p.1).Nodup ∧
  (q.enum.map fun p => (p.2 : ℤ) - (p.1 : ℤ)).Nodup

instance (n : ℕ) (q : List ℕ) : Decidable (nqOk n q) := by
  unfold nqOk
  infer_instance

/-- Candidate row `x` for the queen of column `acc.length` conflicts with
none of the already placed queens `acc`: distinct rows and distinct
diagonals in both directions. -/
def okAt (acc : List ℕ) (x : ℕ) : Bool :=
  acc.enum.all fun p =>
    x != p.2 && (x + acc.length != p.2 + p.1) &&
      ((x : ℤ) - (acc.length : ℤ) != (p.2 : ℤ) - (p.1 : ℤ))

/-- Backtracking enumeration of all solutions of the 8-queens model. -/
def queensEnum : List (List ℕ) :=
  (List.range 8).flatMap fun a0 =>
  ((List.range 8).filter (okAt [a0])).flatMap fun a1 =>
  ((List.range 8).filter (okAt [a0, a1])).flatMap fun a2 =>
  ((List.range 8).filter (okAt [a0, a1, a2])).flatMap fun a3 =>
  ((List.range 8).filter (okAt [a0, a1, a2, a3])).flatMap fun a4 =>
  ((List.range 8).filter (okAt [a0, a1, a2, a3, a4])).flatMap fun a5 =>
  ((List.range 8).filter (okAt [a0, a1, a2, a3, a4, a5])).flatMap fun a6 =>
  ((List.range 8).filter (okAt [a0, a1, a2, a3, a4, a5, a6])).map fun a7 =>
  [a0, a1, a2, a3, a4, a5, a6, a7]

end NQueens

/-! ### Nurse rostering model (nurse-shift.py): definitions -/

namespace Roster

/-- `num_nurses = 4`. -/
def numNurses : ℕ := 4

/-- `num_shifts = 3`. -/
def numShifts : ℕ := 3

/-- `num_days = 3`. -/
def numDays : ℕ := 3

/-- `min_shifts_per_nurse = (num_shifts * num_days) // num_nurses`. -/
def minShiftsPerNurse : ℕ := numShifts * numDays / numNurses

/-- `max_shifts_per_nurse`: equal to the minimum when the total divides
evenly, otherwise one more. -/
def maxShiftsPerNurse : ℕ :=
  if numShifts * numDays % numNurses = 0 then minShiftsPerNurse
  else minShiftsPerNurse + 1

/-- Number of nurses assigned to shift `s` of day `d`
(the sum the `add_exactly_one` constraint speaks about). -/
def nursesOn (w : ℕ → ℕ → ℕ → Bool) (d s : ℕ) : ℕ :=
  ((List.range numNurses).filter fun nu => w nu d s).length

/-- Number of shifts nurse `nu` works on day `d`
(the sum the `add_at_most_one` constraint speaks about). -/
def shiftsOn (w : ℕ → ℕ → ℕ → Bool) (nu d : ℕ) : ℕ :=
  ((List.range numShifts).filter fun s => w nu d s).length

/-- Total number of shifts nurse `nu` works
(the sum of `shifts_worked` in the script). -/
def totalShifts (w : ℕ → ℕ → ℕ → Bool) (nu : ℕ) : ℕ :=
  ((List.range numDays).map fun d => shiftsOn w nu d).sum

/-- A feasible roster: each `(day, shift)` pair has exactly one nurse,
each nurse works at most one shift per day, and each nurse's total lies
in the fairness band. -/
def rosterOk (w : ℕ → ℕ → ℕ → Bool) : Prop :=
  (∀ d < numDays, ∀ s < numShifts, nursesOn w d s = 1) ∧
  (∀ nu < numNurses, ∀ d < numDays, shiftsOn w nu d ≤ 1) ∧
  (∀ nu < numNurses,
    minShiftsPerNurse ≤ totalShifts w nu ∧ totalShifts w nu ≤ maxShiftsPerNurse)

instance (w : ℕ → ℕ → ℕ → Bool) : Decidable (rosterOk w) := by
  unfold rosterOk
  infer_instance

/-- A concrete roster used to witness satisfiability of the model. -/
def sampleRoster : ℕ → ℕ → ℕ → Bool := fun nu d s =>
  match d, s with
  | 0, 0 => nu == 0
  | 0, 1 => nu == 1
  | 0, 2 => nu == 2
  | 1, 0 => nu == 3
  | 1, 1 => nu == 0
  | 1, 2 => nu == 1
  | 2, 0 => nu == 2
  | 2, 1 => nu == 3
  | 2, 2 => nu == 0
  | _, _ => false

end Roster

/-! ### Blocking-constraint enumeration loop (sat-cp.py): definitions -/

namespace SatCp

/-- An assignment to the tracked variables `(x, y, z)`. -/
abbrev Assignment := ℕ × ℕ × ℕ

/-- `num_vals = 3`: each of x, y, z is created with domain `[0, 2]`. -/
def numVals : ℕ := 3

/-- `maxSolutions = 10`: the iterative loop runs `for i in range(10)`. -/
def maxSolutions : ℕ := 10

/-- Domain constraints of the three variables. -/
def inDomain (a : Assignment) : Prop :=
  a.1 ≤ numVals - 1 ∧ a.2.1 ≤ numVals - 1 ∧ a.2.2 ≤ numVals - 1

instance (a : Assignment) : Decidable (inDomain a) := by
  unfold inDomain
  infer_instance

/-- The base model: domains plus the single constraint `x != y`. -/
def satBase (a : Assignment) : Prop := inDomain a ∧ a.1 ≠ a.2.1

instance (a : Assignment) : Decidable (satBase a) := by
  unfold satBase
  infer_instance

/-- Satisfaction of the blocking constraint the loop appends after finding
`sol`: for each tracked variable a fresh Boolean indicator is reified to
"the variable equals its value in `sol`" via the two `only_enforce_if`
implications, and `add_bool_or` requires at least one indicator false. -/
def blockSat (sol a : Assignment) : Prop :=
  ∃ bx bb bz : Bool,
    (bx = true → a.1 = sol.1) ∧ (bx = false → a.1 ≠ sol.1) ∧
    (bb = true → a.2.1 = sol.2.1) ∧ (bb = false → a.2.1 ≠ sol.2.1) ∧
    (bz = true → a.2.2 = sol.2.2) ∧ (bz = false → a.2.2 ≠ sol.2.2) ∧
    (bx = false ∨ bb = false ∨ bz = false)

instance (sol a : Assignment) : Decidable (blockSat sol a) := by
  unfold blockSat
  infer_instance

/-- Satisfaction of the model after the blocking constraints of all the
solutions in `blocked` have been appended. -/
def modelSat (blocked : List Assignment) (a : Assignment) : Prop :=
  satBase a ∧ ∀ sol ∈ blocked, blockSat sol a

instance (blocked : List Assignment) (a : Assignment) :
    Decidable (modelSat blocked a) := by
  unfold modelSat
  infer_instance

/-- The solver-engine contract for one solve call on the current model:
a returned solution satisfies the model, and a non-feasible status is
returned only when no assignment satisfies the model. -/
def SolverOk (choose : List Assignment → Option Assignment) : Prop :=
  (∀ bl a, choose bl = some a → modelSat bl a) ∧
  (∀ bl, choose bl = none → ∀ a, ¬ modelSat bl a)

/-- The iterative enumeration loop: each round solves the current model
(base constraints plus all blocking constraints added so far); on a
feasible status the solution is emitted and blocked, on a non-feasible
status the model is left unchanged (the loop has stopped). -/
def run (choose : List Assignment → Option Assignment) : ℕ → List Assignment
  | 0 => []
  | Nat.succ m =>
    match choose (run choose m) with
    | some a => run choose m ++ [a]
    | none => run choose m

/-- The full assignment space: the product of the three domains. -/
def allAssignments : Finset Assignment :=
  Finset.range numVals ×ˢ Finset.range numVals ×ˢ Finset.range numVals

/-- The feasible region of the model after blocking `bl`. -/
def feasibleSet (bl : List Assignment) : Finset Assignment :=
  allAssignments.filter fun a => satBase a ∧ a ∉ bl

/-- Number of solutions of the base model. -/
def totalSolutions : ℕ :=
  (allAssignments.filter fun a => satBase a).card

/-- The assignment space as a list, in lexicographic order. -/
def allAssignList : List Assignment :=
  (List.range numVals).flatMap fun x =>
    (List.range numVals).flatMap fun y =>
      (List.range numVals).map fun z => (x, y, z)

/-- A concrete deterministic solver satisfying the engine contract: it
returns the first assignment of the space satisfying the current model,
and none when no assignment does. -/
def firstFeasible (bl : List Assignment) : Option Assignment :=
  (allAssignList.filter fun a => decide (modelSat bl a)).head?

end SatCp

/-! ### Job-shop model: theorems -/

namespace JobShop

lemma foldr_max_le {l : List ℕ} {c : ℕ} (h : ∀ x ∈ l, x ≤ c) :
    l.foldr max 0 ≤ c := by
  induction l with
  | nil => exact Nat.zero_le c
  | cons a l ih =>
    simp only [List.foldr_cons]
    exact max_le (h a (by simp)) (ih fun x hx => h x (by simp [hx]))

lemma horizon_eq (jobs : List (List (ℕ × ℕ))) :
    horizon jobs = (jobs.map fun job => (job.map fun task => task.2).sum).sum := by
  induction jobs with
  | nil => rfl
  | cons jb jbs ih =>
    simp only [horizon, List.flatMap_cons, List.map_append, List.sum_append,
      List.map_cons, List.sum_cons]
    rw [← ih]
    rfl

lemma sample_makespan_lower (st : ℕ → ℕ → ℕ) (h : Feasible sampleJobs st) :
    11 ≤ makespan sampleJobs st := by
  obtain ⟨hdom, hno, hprec⟩ := h
  have p0 : st 0 0 + 2 ≤ st 0 1 := hprec 0 (by decide) 0 (by decide)
  have p1 : st 1 0 + 4 ≤ st 1 1 := hprec 1 (by decide) 0 (by decide)
  have p2 : st 2 0 + 3 ≤ st 2 1 := hprec 2 (by decide) 0 (by decide)
  have n01 : st 0 0 + 2 ≤ st 1 0 ∨ st 1 0 + 4 ≤ st 0 0 :=
    hno 0 (by decide) 0 (by decide) 1 (by decide) 0 (by decide) (by decide) rfl
  have n02 : st 0 0 + 2 ≤ st 2 0 ∨ st 2 0 + 3 ≤ st 0 0 :=
    hno 0 (by decide) 0 (by decide) 2 (by decide) 0 (by decide) (by decide) rfl
  have n12 : st 1 0 + 4 ≤ st 2 0 ∨ st 2 0 + 3 ≤ st 1 0 :=
    hno 1 (by decide) 0 (by decide) 2 (by decide) 0 (by decide) (by decide) rfl
  have hm : makespan sampleJobs st =
      max (st 0 1 + 3) (max (st 1 1 + 2) (max (st 2 1 + 3) 0)) := rfl
  rw [hm]
  simp only [le_max_iff]
  omega

/-- Claim C1 counterexample: for the sample.py job-shop instance
(`jobs_data = [[(0,2),(1,3)],[(0,4),(1,2)],[(0,3),(1,3)]]`) the minimum
achievable makespan is not 9: machine 0 carries total load 9, so some job
finishes its machine-0 task no earlier than 9 and its machine-1 task no
earlier than 11. -/
theorem sample_min_makespan_not_nine : ¬ MinMakespanIs sampleJobs 9 := by
  rintro ⟨⟨st, hf, hm⟩, -⟩
  have h11 := sample_makespan_lower st hf
  omega

/-- Claim C1 (amended): the minimum achievable makespan of the sample.py
job-shop instance is 11: the schedule starting the jobs at
(0,2),(5,9),(2,5) attains 11, and no feasible schedule beats 11. -/
theorem sample_min_makespan_eleven : MinMakespanIs sampleJobs 11 :=
  ⟨⟨sampleSchedule, by decide, by decide⟩, sample_makespan_lower⟩

/-- Claim C7: in every feasible schedule of a job-shop model, within every
job the end time of task `k` is at most the start time of task `k+1`. -/
theorem jobshop_precedence_in_solutions (jobs : List (List (ℕ × ℕ)))
    (st : ℕ → ℕ → ℕ) (h : Feasible jobs st) :
    ∀ j < jobs.length, ∀ k < numTasks jobs j - 1,
      endT jobs st j k ≤ st j (k + 1) :=
  fun j hj k hk => h.2.2 j hj k hk

/-- Witness for claim C7: the sample.py instance together with a concrete
feasible schedule. -/
theorem jobshop_precedence_witness :
    Feasible sampleJobs sampleSchedule ∧
    ∀ j < sampleJobs.length, ∀ k < numTasks sampleJobs j - 1,
      endT sampleJobs sampleSchedule j k ≤ sampleSchedule j (k + 1) :=
  ⟨by decide, jobshop_precedence_in_solutions sampleJobs sampleSchedule (by decide)⟩

/-- Claim C8: in every feasible schedule of a job-shop model, the half-open
intervals `[start, start + duration)` of two distinct tasks on the same
machine share no time point. -/
theorem jobshop_no_overlap_in_solutions (jobs : List (List (ℕ × ℕ)))
    (st : ℕ → ℕ → ℕ) (h : Feasible jobs st) :
    ∀ j < jobs.length, ∀ k < numTasks jobs j,
      ∀ j2 < jobs.length, ∀ k2 < numTasks jobs j2,
        (j, k) ≠ (j2, k2) → mach jobs j k = mach jobs j2 k2 →
          ∀ tm : ℕ, ¬ (st j k ≤ tm ∧ tm < st j k + dur jobs j k ∧
            st j2 k2 ≤ tm ∧ tm < st j2 k2 + dur jobs j2 k2) := by
  intro j hj k hk j2 hj2 k2 hk2 hne2 hmach tm hcon
  have hd := h.2.1 j hj k hk j2 hj2 k2 hk2 hne2 hmach
  unfold endT at hd
  omega

/-- Witness for claim C8: the sample.py instance together with a concrete
feasible schedule. -/
theorem jobshop_no_overlap_witness :
    Feasible sampleJobs sampleSchedule ∧
    ∀ j < sampleJobs.length, ∀ k < numTasks sampleJobs j,
      ∀ j2 < sampleJobs.length, ∀ k2 < numTasks sampleJobs j2,
        (j, k) ≠ (j2, k2) → mach sampleJobs j k = mach sampleJobs j2 k2 →
          ∀ tm : ℕ, ¬ (sampleSchedule j k ≤ tm ∧
            tm < sampleSchedule j k + dur sampleJobs j k ∧
            sampleSchedule j2 k2 ≤ tm ∧
            tm < sampleSchedule j2 k2 + dur sampleJobs j2 k2) :=
  ⟨by decide, jobshop_no_overlap_in_solutions sampleJobs sampleSchedule (by decide)⟩

/-- Claim C9: the horizon is the sum of the durations of all tasks across
all jobs, and in every feasible schedule every start time, every end time
and the makespan lie within `[0, horizon]` (each of these variables is
created with domain `[0, horizon]`). -/
theorem jobshop_horizon_bounds (jobs : List (List (ℕ × ℕ)))
    (st : ℕ → ℕ → ℕ) (hne2 : ∀ job ∈ jobs, job ≠ [])
    (h : Feasible jobs st) :
    horizon jobs = (jobs.map fun job => (job.map fun task => task.2).sum).sum ∧
    (∀ j < jobs.length, ∀ k < numTasks jobs j,
      st j k ≤ horizon jobs ∧ endT jobs st j k ≤ horizon jobs) ∧
    makespan jobs st ≤ horizon jobs := by
  refine ⟨horizon_eq jobs, fun j hj k hk => h.1 j hj k hk, ?_⟩
  refine foldr_max_le ?_
  intro x hx
  have hx2 : x ∈ (List.range jobs.length).map
      (fun j => endT jobs st j (numTasks jobs j - 1)) := hx
  obtain ⟨j, hjr, rfl⟩ := List.mem_map.mp hx2
  have hj := List.mem_range.mp hjr
  have hpos : jobs.getD j [] ≠ [] :=
    hne2 _ (by rw [List.getD_eq_getElem _ _ hj]; exact List.getElem_mem hj)
  have hlt : numTasks jobs j - 1 < numTasks jobs j := by
    have hp : 0 < (jobs.getD j []).length := List.length_pos.mpr hpos
    have hp2 : 0 < numTasks jobs j := hp
    omega
  exact (h.1 j hj _ hlt).2

/-- Witness for claim C9: the sample.py instance together with a concrete
feasible schedule. -/
theorem jobshop_horizon_witness :
    (∀ job ∈ sampleJobs, job ≠ []) ∧ Feasible sampleJobs sampleSchedule ∧
    (horizon sampleJobs =
      (sampleJobs.map fun job => (job.map fun task => task.2).sum).sum ∧
    (∀ j < sampleJobs.length, ∀ k < numTasks sampleJobs j,
      sampleSchedule j k ≤ horizon sampleJobs ∧
      endT sampleJobs sampleSchedule j k ≤ horizon sampleJobs) ∧
    makespan sampleJobs sampleSchedule ≤ horizon sampleJobs) :=
  ⟨by decide, by decide,
    jobshop_horizon_bounds sampleJobs sampleSchedule (by decide) (by decide)⟩

end JobShop

/-! ### Cryptarithmetic model: theorems -/

namespace Crypto

lemma mem_d7 {x : ℕ} : x ∈ d7 ↔ 2 ≤ x ∧ x ≤ 8 := by
  simp only [d7, List.mem_cons, List.not_mem_nil, or_false]
  omega

lemma okDistinct_of_nodup {acc : List ℕ} {x : ℕ} (h : (acc ++ [x]).Nodup) :
    okDistinct acc x = true := by
  rw [okDistinct, List.all_eq_true]
  intro y hy
  rw [bne_iff_ne]
  intro he
  rw [List.nodup_append] at h
  exact h.2.2 hy (by simp [he])

lemma forced {c p i s f u n t r e : ℕ}
    (hc1 : 1 ≤ c) (hc9 : c ≤ 9) (hp9 : p ≤ 9) (hi1 : 1 ≤ i) (hi9 : i ≤ 9)
    (hs9 : s ≤ 9) (hf1 : 1 ≤ f) (hf9 : f ≤ 9) (hu9 : u ≤ 9) (hn9 : n ≤ 9)
    (ht1 : 1 ≤ t) (ht9 : t ≤ 9) (hr9 : r ≤ 9) (he9 : e ≤ 9)
    (htr : t ≠ r) (hci : c ≠ i)
    (heq : c * 10 + p + i * 10 + s + f * 10 * 10 + u * 10 + n
      = t * 10 * 10 * 10 + r * 10 * 10 + u * 10 + e) :
    t = 1 ∧ r = 0 ∧ f = 9 := by
  omega

lemma digitWindow {x : ℕ} (hx9 : x ≤ 9) (h0 : x ≠ 0) (h1 : x ≠ 1)
    (h9 : x ≠ 9) : 2 ≤ x ∧ x ≤ 8 := by
  omega

lemma cryptoEnum_sound : ∀ a ∈ cryptoEnum, Ok a := by decide

lemma cryptoEnum_nodup : cryptoEnum.Nodup := by decide

lemma cryptoEnum_length : cryptoEnum.length = 72 := by decide

lemma cryptoEnum_complete (a : Sol) (h : Ok a) : a ∈ cryptoEnum := by
  obtain ⟨c, p, i, s, f, u, n, t, r, e⟩ := a
  obtain ⟨hc1, hc9, hp9, hi1, hi9, hs9, hf1, hf9, hu9, hn9, ht1, ht9, hr9,
    he9, hnd, heq⟩ := h
  have hnd2 : ([c, p, i, s, f, u, n, t, r, e] : List ℕ).Nodup := hnd
  have hx := hnd2
  simp only [List.nodup_cons, List.mem_cons, List.mem_singleton, not_or,
    List.not_mem_nil, List.nodup_nil, and_true] at hx
  have hci : c ≠ i := by tauto
  have htr : t ≠ r := by tauto
  have hct : c ≠ t := by tauto
  have hcf : c ≠ f := by tauto
  have hpt : p ≠ t := by tauto
  have hpr : p ≠ r := by tauto
  have hpf : p ≠ f := by tauto
  have hit : i ≠ t := by tauto
  have hif : i ≠ f := by tauto
  have hst : s ≠ t := by tauto
  have hsr : s ≠ r := by tauto
  have hsf : s ≠ f := by tauto
  have hut : u ≠ t := by tauto
  have hur : u ≠ r := by tauto
  have hfu : f ≠ u := by tauto
  have hnt : n ≠ t := by tauto
  have hnr : n ≠ r := by tauto
  have hfn : f ≠ n := by tauto
  have hte : t ≠ e := by tauto
  have hre : r ≠ e := by tauto
  have hfe : f ≠ e := by tauto
  obtain ⟨ht1e, hr0e, hf9e⟩ := forced hc1 hc9 hp9 hi1 hi9 hs9 hf1 hf9 hu9
    hn9 ht1 ht9 hr9 he9 htr hci heq
  subst ht1e hr0e hf9e
  have hsub7 : ([c, p, i, s, u, n, e] : List ℕ).Sublist
      [c, p, i, s, 9, u, n, 1, 0, e] :=
    ((((((((List.Sublist.refl [e]).cons 0).cons 1).cons₂ n).cons₂ u).cons
      9).cons₂ s).cons₂ i).cons₂ p |>.cons₂ c
  have h7 : ([c, p, i, s, u, n, e] : List ℕ).Nodup :=
    List.Nodup.sublist hsub7 hnd2
  have htake : ∀ k : ℕ, (List.take k [c, p, i, s, u, n, e]).Nodup :=
    fun k => List.Nodup.sublist (List.take_sublist k _) h7
  have wc : 2 ≤ c ∧ c ≤ 8 :=
    digitWindow hc9 (Nat.one_le_iff_ne_zero.mp hc1) hct hcf
  have wp : 2 ≤ p ∧ p ≤ 8 := digitWindow hp9 hpr hpt hpf
  have wi : 2 ≤ i ∧ i ≤ 8 :=
    digitWindow hi9 (Nat.one_le_iff_ne_zero.mp hi1) hit hif
  have ws : 2 ≤ s ∧ s ≤ 8 := digitWindow hs9 hsr hst hsf
  have wu : 2 ≤ u ∧ u ≤ 8 := digitWindow hu9 hur hut hfu.symm
  have wn : 2 ≤ n ∧ n ≤ 8 := digitWindow hn9 hnr hnt hfn.symm
  have we : 2 ≤ e ∧ e ≤ 8 := digitWindow he9 hre.symm hte.symm hfe.symm
  refine List.mem_flatMap.mpr ⟨c, mem_d7.mpr wc, ?_⟩
  refine List.mem_flatMap.mpr ⟨p, List.mem_filter.mpr
    ⟨mem_d7.mpr wp, okDistinct_of_nodup (htake 2)⟩, ?_⟩
  refine List.mem_flatMap.mpr ⟨i, List.mem_filter.mpr
    ⟨mem_d7.mpr wi, okDistinct_of_nodup (htake 3)⟩, ?_⟩
  refine List.mem_flatMap.mpr ⟨s, List.mem_filter.mpr
    ⟨mem_d7.mpr ws, okDistinct_of_nodup (htake 4)⟩, ?_⟩
  refine List.mem_flatMap.mpr ⟨u, List.mem_filter.mpr
    ⟨mem_d7.mpr wu, okDistinct_of_nodup (htake 5)⟩, ?_⟩
  refine List.mem_flatMap.mpr ⟨n, List.mem_filter.mpr
    ⟨mem_d7.mpr wn, okDistinct_of_nodup (htake 6)⟩, ?_⟩
  refine List.mem_flatMap.mpr ⟨e, List.mem_filter.mpr
    ⟨mem_d7.mpr we, okDistinct_of_nodup (htake 7)⟩, ?_⟩
  rw [if_pos heq]
  exact List.mem_singleton.mpr rfl

/-- Claim C2: the cryptarithmetic model CP + IS + FUN = TRUE in base 10
(leading letters in `[1, 9]`, the others in `[0, 9]`, all ten letters
pairwise different, plus the linear digit equality) has exactly 72
distinct satisfying assignments, so an exhaustive enumeration of its
solutions yields count 72. -/
theorem crypto_solution_count : {a : Sol | Ok a}.ncard = 72 := by
  have hset : {a : Sol | Ok a} = ↑cryptoEnum.toFinset := Set.ext fun a => by
    simp only [Set.mem_setOf_eq, Finset.mem_coe, List.mem_toFinset]
    exact ⟨cryptoEnum_complete a, fun hm => cryptoEnum_sound a hm⟩
  rw [hset, Set.ncard_coe_Finset,
    List.toFinset_card_of_nodup cryptoEnum_nodup, cryptoEnum_length]

/-- Claim C10: in the puzzle equality the letter U appears with coefficient
`base` on both sides, so the truth of the equality does not depend on the
value assigned to U: any two values of U give equivalent constraints, and U
is effectively constrained only by its domain and the all-different
constraint. -/
theorem crypto_u_cancels (c p i s f u u2 n t r e : ℕ) :
    puzzleEq c p i s f u n t r e ↔ puzzleEq c p i s f u2 n t r e := by
  unfold puzzleEq base
  omega

end Crypto

/-! ### N-queens model: theorems -/

namespace NQueens

lemma okAt_of_nodup {acc : List ℕ} {x : ℕ}
    (h1 : (acc ++ [x]).Nodup)
    (h2 : ((acc ++ [x]).enum.map fun p => p.2 + p.1).Nodup)
    (h3 : ((acc ++ [x]).enum.map fun p => (p.2 : ℤ) - (p.1 : ℤ)).Nodup) :
    okAt acc x = true := by
  have henum : (acc ++ [x]).enum = acc.enum ++ [(acc.length, x)] := by
    rw [List.enum_append]; rfl
  rw [henum, List.map_append] at h2 h3
  rw [List.nodup_append] at h1 h2 h3
  rw [okAt, List.all_eq_true]
  intro p hp
  have hpma : p.2 ∈ acc := by
    obtain ⟨hlt, heq⟩ := List.mem_enum hp
    exact heq ▸ List.getElem_mem hlt
  simp only [Bool.and_eq_true, bne_iff_ne]
  refine ⟨⟨?_, ?_⟩, ?_⟩
  · intro he
    exact h1.2.2 hpma (by simp [he])
  · intro he
    have hm : p.2 + p.1 ∈ (acc.enum.map fun q => q.2 + q.1) :=
      List.mem_map_of_mem _ hp
    exact h2.2.2 hm (by simp [he])
  · intro he
    have hm : (p.2 : ℤ) - (p.1 : ℤ) ∈ (acc.enum.map fun q => (q.2 : ℤ) - (q.1 : ℤ)) :=
      List.mem_map_of_mem _ hp
    exact h3.2.2 hm (by simp [he])

lemma queensEnum_sound : ∀ q ∈ queensEnum, nqOk 8 q := by decide

lemma queensEnum_nodup : queensEnum.Nodup := by decide

lemma queensEnum_length : queensEnum.length = 92 := by decide

lemma queensEnum_complete (q : List ℕ) (h : nqOk 8 q) : q ∈ queensEnum := by
  obtain ⟨hlen, hbound, hnd, hd1, hd2⟩ := h
  rcases q with _ | ⟨a0, q⟩; · simp at hlen
  rcases q with _ | ⟨a1, q⟩; · simp at hlen
  rcases q with _ | ⟨a2, q⟩; · simp at hlen
  rcases q with _ | ⟨a3, q⟩; · simp at hlen
  rcases q with _ | ⟨a4, q⟩; · simp at hlen
  rcases q with _ | ⟨a5, q⟩; · simp at hlen
  rcases q with _ | ⟨a6, q⟩; · simp at hlen
  rcases q with _ | ⟨a7, q⟩; · simp at hlen
  rcases q with _ | ⟨a8, q⟩
  swap
  · simp [List.length_cons] at hlen
  have hT1 : ∀ k : ℕ, (List.take k [a0, a1, a2, a3, a4, a5, a6, a7]).Nodup :=
    fun k => List.Nodup.sublist (List.take_sublist k _) hnd
  have hT2 : ∀ k : ℕ,
      (List.take k (([a0, a1, a2, a3, a4, a5, a6, a7] : List ℕ).enum.map
        fun p => p.2 + p.1)).Nodup :=
    fun k => List.Nodup.sublist (List.take_sublist k _) hd1
  have hT3 : ∀ k : ℕ,
      (List.take k (([a0, a1, a2, a3, a4, a5, a6, a7] : List ℕ).enum.map
        fun p => (p.2 : ℤ) - (p.1 : ℤ))).Nodup :=
    fun k => List.Nodup.sublist (List.take_sublist k _) hd2
  have hb0 : a0 ≤ 7 := hbound a0 (by simp)
  have hb1 : a1 ≤ 7 := hbound a1 (by simp)
  have hb2 : a2 ≤ 7 := hbound a2 (by simp)
  have hb3 : a3 ≤ 7 := hbound a3 (by simp)
  have hb4 : a4 ≤ 7 := hbound a4 (by simp)
  have hb5 : a5 ≤ 7 := hbound a5 (by simp)
  have hb6 : a6 ≤ 7 := hbound a6 (by simp)
  have hb7 : a7 ≤ 7 := hbound a7 (by simp)
  refine List.mem_flatMap.mpr ⟨a0, List.mem_range.mpr (Nat.lt_succ_iff.mpr hb0), ?_⟩
  refine List.mem_flatMap.mpr ⟨a1, List.mem_filter.mpr
    ⟨List.mem_range.mpr (Nat.lt_succ_iff.mpr hb1),
      okAt_of_nodup (hT1 2) (hT2 2) (hT3 2)⟩, ?_⟩
  refine List.mem_flatMap.mpr ⟨a2, List.mem_filter.mpr
    ⟨List.mem_range.mpr (Nat.lt_succ_iff.mpr hb2),
      okAt_of_nodup (hT1 3) (hT2 3) (hT3 3)⟩, ?_⟩
  refine List.mem_flatMap.mpr ⟨a3, List.mem_filter.mpr
    ⟨List.mem_range.mpr (Nat.lt_succ_iff.mpr hb3),
      okAt_of_nodup (hT1 4) (hT2 4) (hT3 4)⟩, ?_⟩
  refine List.mem_flatMap.mpr ⟨a4, List.mem_filter.mpr
    ⟨List.mem_range.mpr (Nat.lt_succ_iff.mpr hb4),
      okAt_of_nodup (hT1 5) (hT2 5) (hT3 5)⟩, ?_⟩
  refine List.mem_flatMap.mpr ⟨a5, List.mem_filter.mpr
    ⟨List.mem_range.mpr (Nat.lt_succ_iff.mpr hb5),
      okAt_of_nodup (hT1 6) (hT2 6) (hT3 6)⟩, ?_⟩
  refine List.mem_flatMap.mpr ⟨a6, List.mem_filter.mpr
    ⟨List.mem_range.mpr (Nat.lt_succ_iff.mpr hb6),
      okAt_of_nodup (hT1 7) (hT2 7) (hT3 7)⟩, ?_⟩
  exact List.mem_map.mpr ⟨a7, List.mem_filter.mpr
    ⟨List.mem_range.mpr (Nat.lt_succ_iff.mpr hb7),
      okAt_of_nodup hnd hd1 hd2⟩, rfl⟩

/-- Claim C3: the 8-queens model (eight variables with domain `[0, 7]`,
all-different on the positions, on `position + index` and on
`position - index`) has exactly 92 distinct satisfying assignments. -/
theorem nqueens_solution_count : {q : List ℕ | nqOk 8 q}.ncard = 92 := by
  have hset : {q : List ℕ | nqOk 8 q} = ↑queensEnum.toFinset :=
    Set.ext fun q => by
      simp only [Set.mem_setOf_eq, Finset.mem_coe, List.mem_toFinset]
      exact ⟨queensEnum_complete q, fun hm => queensEnum_sound q hm⟩
  rw [hset, Set.ncard_coe_Finset,
    List.toFinset_card_of_nodup queensEnum_nodup, queensEnum_length]

end NQueens

/-! ### Nurse rostering model: theorems -/

namespace Roster

lemma filter_length_one_exists_unique {l : List ℕ} {p : ℕ → Bool}
    (h : (l.filter p).length = 1) : ∃! a, a ∈ l ∧ p a = true := by
  obtain ⟨b, hb⟩ := List.length_eq_one.mp h
  have hbm : b ∈ l.filter p := hb ▸ List.mem_singleton_self b
  rw [List.mem_filter] at hbm
  refine ⟨b, hbm, ?_⟩
  intro y hy
  have hyf : y ∈ l.filter p := List.mem_filter.mpr hy
  rw [hb] at hyf
  exact List.mem_singleton.mp hyf

/-- Claim C6: in the rostering model with 4 nurses, 3 shifts per day and
3 days, the derived fairness bounds are `min_shifts_per_nurse = 2` and
`max_shifts_per_nurse = 3`, and every feasible roster assigns each
`(day, shift)` pair to exactly one nurse, gives each nurse at most one
shift per day, and gives each nurse a total of 2 or 3 shifts. -/
theorem roster_fairness (w : ℕ → ℕ → ℕ → Bool) (h : rosterOk w) :
    minShiftsPerNurse = 2 ∧ maxShiftsPerNurse = 3 ∧
    (∀ d < numDays, ∀ s < numShifts,
      ∃! nu, nu < numNurses ∧ w nu d s = true) ∧
    (∀ nu < numNurses, ∀ d < numDays, shiftsOn w nu d ≤ 1) ∧
    (∀ nu < numNurses, totalShifts w nu = 2 ∨ totalShifts w nu = 3) := by
  obtain ⟨hone, hatmost, hband⟩ := h
  refine ⟨rfl, rfl, ?_, hatmost, ?_⟩
  · intro d hd s hs
    obtain ⟨b, ⟨hbm, hbw⟩, huniq⟩ :=
      filter_length_one_exists_unique (hone d hd s hs)
    exact ⟨b, ⟨List.mem_range.mp hbm, hbw⟩,
      fun y hy => huniq y ⟨List.mem_range.mpr hy.1, hy.2⟩⟩
  · intro nu hnu
    have hb1 : 2 ≤ totalShifts w nu := (hband nu hnu).1
    have hb2 : totalShifts w nu ≤ 3 := (hband nu hnu).2
    omega

/-- Witness for claim C6: a concrete feasible roster. -/
theorem roster_fairness_witness :
    rosterOk sampleRoster ∧
    (minShiftsPerNurse = 2 ∧ maxShiftsPerNurse = 3 ∧
    (∀ d < numDays, ∀ s < numShifts,
      ∃! nu, nu < numNurses ∧ sampleRoster nu d s = true) ∧
    (∀ nu < numNurses, ∀ d < numDays, shiftsOn sampleRoster nu d ≤ 1) ∧
    (∀ nu < numNurses,
      totalShifts sampleRoster nu = 2 ∨ totalShifts sampleRoster nu = 3)) :=
  ⟨by decide, roster_fairness sampleRoster (by decide)⟩

end Roster

/-! ### Blocking-constraint enumeration loop: theorems -/

namespace SatCp

lemma blockSat_iff (sol a : Assignment) : blockSat sol a ↔ a ≠ sol := by
  constructor
  · rintro ⟨bx, bb, bz, hx1, hx2, hy1, hy2, hz1, hz2, hor⟩ heq
    subst heq
    rcases hor with hh | hh | hh
    · exact hx2 hh rfl
    · exact hy2 hh rfl
    · exact hz2 hh rfl
  · intro hne2
    refine ⟨decide (a.1 = sol.1), decide (a.2.1 = sol.2.1),
      decide (a.2.2 = sol.2.2),
      fun hh => of_decide_eq_true hh, fun hh => of_decide_eq_false hh,
      fun hh => of_decide_eq_true hh, fun hh => of_decide_eq_false hh,
      fun hh => of_decide_eq_true hh, fun hh => of_decide_eq_false hh, ?_⟩
    by_contra hall
    push_neg at hall
    obtain ⟨h1, h2, h3⟩ := hall
    apply hne2
    have e1 : a.1 = sol.1 := of_decide_eq_true (Bool.ne_false_iff.mp h1)
    have e2 : a.2.1 = sol.2.1 := of_decide_eq_true (Bool.ne_false_iff.mp h2)
    have e3 : a.2.2 = sol.2.2 := of_decide_eq_true (Bool.ne_false_iff.mp h3)
    exact Prod.ext_iff.mpr ⟨e1, Prod.ext_iff.mpr ⟨e2, e3⟩⟩

lemma mem_allAssignments (a : Assignment) : a ∈ allAssignments ↔ inDomain a := by
  obtain ⟨x, y, z⟩ := a
  simp only [allAssignments, inDomain, Finset.mem_product, Finset.mem_range,
    numVals]
  omega

lemma run_sound (choose : List Assignment → Option Assignment)
    (h : SolverOk choose) (nn : ℕ) :
    (run choose nn).Nodup ∧ ∀ a ∈ run choose nn, satBase a := by
  induction nn with
  | zero => exact ⟨List.nodup_nil, by simp [run]⟩
  | succ m ih =>
    cases hc : choose (run choose m) with
    | none =>
      have hrw : run choose (m + 1) = run choose m := by simp [run, hc]
      rw [hrw]; exact ih
    | some a =>
      have hrw : run choose (m + 1) = run choose m ++ [a] := by simp [run, hc]
      have hms := h.1 _ _ hc
      have hnm : a ∉ run choose m := fun hmem =>
        (blockSat_iff a a).mp (hms.2 a hmem) rfl
      rw [hrw]
      constructor
      · rw [List.nodup_append]
        exact ⟨ih.1, List.nodup_singleton a,
          fun x hx hxa => hnm (by rw [List.mem_singleton.mp hxa] at hx; exact hx)⟩
      · intro b hb
        rcases List.mem_append.mp hb with hb | hb
        · exact ih.2 b hb
        · rw [List.mem_singleton.mp hb]; exact hms.1

lemma run_subset_solutions (choose : List Assignment → Option Assignment)
    (h : SolverOk choose) (nn : ℕ) :
    (run choose nn).toFinset ⊆ allAssignments.filter fun a => satBase a := by
  intro a ha
  rw [List.mem_toFinset] at ha
  have hsb := (run_sound choose h nn).2 a ha
  exact Finset.mem_filter.mpr ⟨(mem_allAssignments a).mpr hsb.1, hsb⟩

lemma run_length_le (choose : List Assignment → Option Assignment)
    (h : SolverOk choose) (nn : ℕ) :
    (run choose nn).length ≤ totalSolutions := by
  have hcle := Finset.card_le_card (run_subset_solutions choose h nn)
  rw [List.toFinset_card_of_nodup (run_sound choose h nn).1] at hcle
  exact hcle

lemma feasibleSet_card (choose : List Assignment → Option Assignment)
    (h : SolverOk choose) (nn : ℕ) :
    (feasibleSet (run choose nn)).card =
      totalSolutions - (run choose nn).length := by
  have hfe : feasibleSet (run choose nn) =
      (allAssignments.filter fun a => satBase a) \ (run choose nn).toFinset := by
    ext a
    simp only [feasibleSet, Finset.mem_filter, Finset.mem_sdiff,
      List.mem_toFinset]
    tauto
  rw [hfe, Finset.card_sdiff (run_subset_solutions choose h nn),
    List.toFinset_card_of_nodup (run_sound choose h nn).1]
  rfl

lemma run_succ_none {choose : List Assignment → Option Assignment} {m : ℕ}
    (hc : choose (run choose m) = none) :
    run choose (m + 1) = run choose m := by
  simp [run, hc]

lemma run_succ_some {choose : List Assignment → Option Assignment} {m : ℕ}
    {a : Assignment} (hc : choose (run choose m) = some a) :
    run choose (m + 1) = run choose m ++ [a] := by
  simp [run, hc]

lemma run_stab {choose : List Assignment → Option Assignment} {m : ℕ}
    (hstep : run choose (m + 1) = run choose m) :
    ∀ k, run choose (m + k) = run choose m := by
  have hnone : choose (run choose m) = none := by
    cases hc : choose (run choose m) with
    | none => rfl
    | some a =>
      exfalso
      have hgrow := run_succ_some hc
      rw [hstep] at hgrow
      have hlen := congrArg List.length hgrow
      simp at hlen
  intro k
  induction k with
  | zero => rfl
  | succ k ih =>
    have hnk : choose (run choose (m + k)) = none := by rw [ih]; exact hnone
    have hstep2 : run choose (m + k + 1) = run choose (m + k) := run_succ_none hnk
    rw [show m + (k + 1) = m + k + 1 from rfl, hstep2, ih]

lemma exists_plateau (choose : List Assignment → Option Assignment)
    (h : SolverOk choose) :
    ∃ k ≤ totalSolutions, run choose (k + 1) = run choose k := by
  by_contra hno
  push_neg at hno
  have hlen : ∀ k, k ≤ totalSolutions + 1 → (run choose k).length = k := by
    intro k
    induction k with
    | zero => intro _; rfl
    | succ m ih =>
      intro hk
      have hne2 := hno m (by omega)
      cases hc : choose (run choose m) with
      | none => exact absurd (run_succ_none hc) hne2
      | some a =>
        rw [run_succ_some hc, List.length_append, ih (by omega)]
        rfl
  have h1 := hlen (totalSolutions + 1) (by omega)
  have h2 := run_length_le choose h (totalSolutions + 1)
  omega

lemma choose_none_iff (choose : List Assignment → Option Assignment)
    (h : SolverOk choose) (bl : List Assignment) :
    choose bl = none ↔ feasibleSet bl = ∅ := by
  constructor
  · intro hc
    rw [Finset.eq_empty_iff_forall_not_mem]
    intro a ha
    rw [feasibleSet, Finset.mem_filter] at ha
    exact h.2 bl hc a ⟨ha.2.1, fun sol hs => (blockSat_iff sol a).mpr
      (fun he => ha.2.2 (by rw [he]; exact hs))⟩
  · intro hemp
    cases hc : choose bl with
    | none => rfl
    | some a =>
      exfalso
      have hms := h.1 bl a hc
      have hnm : a ∉ bl := fun hmem => (blockSat_iff a a).mp (hms.2 a hmem) rfl
      have hmem2 : a ∈ feasibleSet bl := by
        rw [feasibleSet, Finset.mem_filter]
        exact ⟨(mem_allAssignments a).mpr hms.1.1, hms.1, hnm⟩
      rw [hemp] at hmem2
      exact absurd hmem2 (Finset.not_mem_empty a)

lemma totalSolutions_eq : totalSolutions = 18 := by decide

lemma run_length_eq (choose : List Assignment → Option Assignment)
    (h : SolverOk choose) :
    ∀ k, k ≤ totalSolutions → (run choose k).length = k := by
  intro k
  induction k with
  | zero => intro _; rfl
  | succ m ih =>
    intro hk
    have hlm : (run choose m).length = m := ih (by omega)
    have hcard := feasibleSet_card choose h m
    have hpos : 0 < (feasibleSet (run choose m)).card := by
      rw [hcard, hlm]; omega
    have hne2 : feasibleSet (run choose m) ≠ ∅ := by
      intro hemp; rw [hemp] at hpos; simp at hpos
    cases hc : choose (run choose m) with
    | none => exact absurd ((choose_none_iff choose h _).mp hc) hne2
    | some a => rw [run_succ_some hc, List.length_append, hlm]; rfl

/-- Claim C4: against any solver satisfying the engine contract, the
blocking-constraint loop of sat-cp.py has these invariants: each appended
blocking constraint (reified equality indicators plus a disjunction) is
satisfied by exactly the assignments differing from the blocked one; no
two emitted solutions coincide; every emitted solution satisfies the base
model; after each emission the feasible region has shrunk by exactly the
emitted assignments; and the emitted list stabilizes within the product of
the domain sizes rounds. -/
theorem blocking_loop_invariants (choose : List Assignment → Option Assignment)
    (h : SolverOk choose) :
    (∀ sol a, blockSat sol a ↔ a ≠ sol) ∧
    (∀ nn, (run choose nn).Nodup) ∧
    (∀ nn, ∀ a ∈ run choose nn, satBase a) ∧
    (∀ nn, (feasibleSet (run choose nn)).card =
      totalSolutions - (run choose nn).length) ∧
    (∀ nn, (run choose nn).length ≤ numVals * numVals * numVals) ∧
    (∀ m, numVals * numVals * numVals ≤ m →
      run choose m = run choose (numVals * numVals * numVals)) := by
  refine ⟨blockSat_iff, fun nn => (run_sound choose h nn).1,
    fun nn => (run_sound choose h nn).2, feasibleSet_card choose h, ?_, ?_⟩
  · intro nn
    have hle := run_length_le choose h nn
    rw [totalSolutions_eq] at hle
    have h27 : numVals * numVals * numVals = 27 := rfl
    omega
  · obtain ⟨k, hk, hstep⟩ := exists_plateau choose h
    have hks : ∀ m2, k ≤ m2 → run choose m2 = run choose k := by
      intro m2 hm2
      have hs2 := run_stab hstep (m2 - k)
      rw [show k + (m2 - k) = m2 from by omega] at hs2
      exact hs2
    intro m hm
    have h27 : numVals * numVals * numVals = 27 := rfl
    have htot := totalSolutions_eq
    rw [hks m (by omega), hks (numVals * numVals * numVals) (by omega)]

lemma mem_allAssignList (a : Assignment) : a ∈ allAssignList ↔ inDomain a := by
  obtain ⟨x, y, z⟩ := a
  simp only [allAssignList, List.mem_flatMap, List.mem_map, List.mem_range,
    numVals, inDomain, Prod.mk.injEq]
  constructor
  · rintro ⟨x2, hx2, y2, hy2, z2, hz2, rfl, rfl, rfl⟩
    omega
  · rintro ⟨hx, hy, hz⟩
    exact ⟨x, by omega, y, by omega, z, by omega, rfl, rfl, rfl⟩

lemma firstFeasible_ok : SolverOk firstFeasible := by
  constructor
  · intro bl a hc
    unfold firstFeasible at hc
    have hmem : a ∈ allAssignList.filter fun x => decide (modelSat bl x) :=
      List.mem_of_mem_head? (Option.mem_def.mpr hc)
    rw [List.mem_filter] at hmem
    exact of_decide_eq_true hmem.2
  · intro bl hc a hms
    unfold firstFeasible at hc
    rw [List.head?_eq_none_iff, List.filter_eq_nil_iff] at hc
    exact hc a ((mem_allAssignList a).mpr hms.1.1) (decide_eq_true hms)

/-- Witness for claim C4: the deterministic first-feasible solver satisfies
the engine contract, and the loop invariants hold against it. -/
theorem blocking_loop_invariants_witness :
    SolverOk firstFeasible ∧
    ((∀ sol a, blockSat sol a ↔ a ≠ sol) ∧
    (∀ nn, (run firstFeasible nn).Nodup) ∧
    (∀ nn, ∀ a ∈ run firstFeasible nn, satBase a) ∧
    (∀ nn, (feasibleSet (run firstFeasible nn)).card =
      totalSolutions - (run firstFeasible nn).length) ∧
    (∀ nn, (run firstFeasible nn).length ≤ numVals * numVals * numVals) ∧
    (∀ m, numVals * numVals * numVals ≤ m →
      run firstFeasible m = run firstFeasible (numVals * numVals * numVals))) :=
  ⟨firstFeasible_ok, blocking_loop_invariants firstFeasible firstFeasible_ok⟩

/-- Claim C5: the base model admits 18 > 10 solutions; against any solver
satisfying the engine contract, the loop capped at `max_solutions = 10`
emits exactly 10 pairwise distinct solutions, every one of its 10 solve
calls returns a solution (the loop stops because the count limit is
reached, not because the model became infeasible), and in general a solve
returns no solution exactly when the remaining feasible region is empty,
so the two stop reasons are distinguished by the last solve status. -/
theorem capped_enumeration_behavior (choose : List Assignment → Option Assignment)
    (h : SolverOk choose) :
    10 < totalSolutions ∧
    (run choose maxSolutions).length = 10 ∧
    (run choose maxSolutions).Nodup ∧
    (∀ k < maxSolutions, ∃ a, choose (run choose k) = some a) ∧
    (∀ bl, choose bl = none ↔ feasibleSet bl = ∅) := by
  have htot := totalSolutions_eq
  refine ⟨by omega, ?_, (run_sound choose h maxSolutions).1, ?_,
    choose_none_iff choose h⟩
  · exact run_length_eq choose h maxSolutions (by rw [htot]; decide)
  · intro k hk
    have hkm : k < 10 := hk
    have hlm : (run choose k).length = k :=
      run_length_eq choose h k (by omega)
    have hcard := feasibleSet_card choose h k
    have hpos : 0 < (feasibleSet (run choose k)).card := by
      rw [hcard, hlm]; omega
    have hne2 : feasibleSet (run choose k) ≠ ∅ := by
      intro hemp; rw [hemp] at hpos; simp at hpos
    cases hc : choose (run choose k) with
    | none => exact absurd ((choose_none_iff choose h _).mp hc) hne2
    | some a => exact ⟨a, rfl⟩

/-- Witness for claim C5: the capped loop driven by the first-feasible
solver. -/
theorem capped_enumeration_witness :
    SolverOk firstFeasible ∧
    (10 < totalSolutions ∧
    (run firstFeasible maxSolutions).length = 10 ∧
    (run firstFeasible maxSolutions).Nodup ∧
    (∀ k < maxSolutions, ∃ a, firstFeasible (run firstFeasible k) = some a) ∧
    (∀ bl, firstFeasible bl = none ↔ feasibleSet bl = ∅)) :=
  ⟨firstFeasible_ok, capped_enumeration_behavior firstFeasible firstFeasible_ok⟩

end SatCp

end ApsLearn
